import Mathlib

/-!
# warmdents: growable path container and worker protocol

Shallow embedding of `warmdents.c`.

* Part 1 models `struct wd_queue` with its `size_t` fields and the container
  operations (`queue_alloc`, `queue_flush_to`, the grow-then-append of
  `warm_dir`, the pop of `run_thread`) with 64-bit wrap-around arithmetic.
  A loop that may not exit takes a bound `fuel` on its iterations.
* Part 2 models `warm_dir`, `main` and `run_thread` as a step function over
  `n` workers. There a queue is represented by its stored items
  `items[0 .. len)`, in order: `queue_push_valid`, `queue_pop_valid` and
  `queue_flush_to_valid` show that append, removal of the last item and
  concatenation are what the container operations do to the stored items
  as long as the byte size of a grown block does not wrap (at most `2 ^ 51`
  items).
  Counts are natural numbers (a `size_t` count does not wrap below `2 ^ 64`
  entries).
-/

namespace Warmdents

/-! ## Part 1: the growable path container -/

/-- Number of values of a `size_t` (64-bit target). -/
def SIZE_MOD : Nat := 2 ^ 64

/-- Value of `PATH_MAX` from `linux/limits.h`. -/
def PATH_MAX : Nat := 4096

/-- The C type `struct wd_queue_item`: one path buffer. -/
structure wd_queue_item where
  path : String
deriving DecidableEq, Inhabited

/-- Value of `sizeof(struct wd_queue_item)`: a `char[PATH_MAX]`. -/
def ITEM_SIZE : Nat := PATH_MAX

/-- The C type `struct wd_queue`, without its lock fields. `items` lists the slots of the
allocated block. -/
structure wd_queue where
  items : List wd_queue_item
  len : Nat
  cap : Nat
deriving DecidableEq

/-- The zero-initialised container `{0}`. -/
def wd_queue.zero : wd_queue := { items := [], len := 0, cap := 0 }

/-- A container as the program can hold it: `len` within `cap`, a block of `cap` slots,
and that block fits the address space (`cap * sizeof(item)` is a `size_t`). -/
def wd_queue.valid (q : wd_queue) : Prop :=
  q.len ≤ q.cap ∧ q.items.length = q.cap ∧ q.cap * ITEM_SIZE < SIZE_MOD

instance (q : wd_queue) : Decidable q.valid := by
  unfold wd_queue.valid; infer_instance

/-- The stored items `items[0 .. len)`. -/
def wd_queue.contents (q : wd_queue) : List wd_queue_item := q.items.take q.len

/-- Library call `realloc(items, size)`, `size` in bytes, taken to succeed: a block of
`size / sizeof(item)` whole slots that keeps the leading slots it shares with the old block.
With `size = 0` no slot is left. -/
def realloc (items : List wd_queue_item) (size : Nat) : List wd_queue_item :=
  items.take (size / ITEM_SIZE) ++ List.replicate (size / ITEM_SIZE - items.length) default

/-- The loop `do { q->cap *= 2; } while (q->cap < cap);` of `queue_alloc`, run for at most
`fuel` iterations on the current capacity `c`; `none` when the loop has not exited by then. -/
def double_loop (cap : Nat) : Nat → Nat → Option Nat
  | 0, _ => none
  | fuel + 1, c =>
    let c' := (c * 2) % SIZE_MOD
    if c' < cap then double_loop cap fuel c' else some c'

/-- The capacity the doubling loop of `queue_alloc` starts from. -/
def start_cap (c : Nat) : Nat := if c ≤ 0 then 1 else c

/-- Source function `queue_alloc(q, cap)`; `fuel` bounds the iterations of its loop. The byte
count handed to `realloc` is the `size_t` product `q->cap * sizeof(struct wd_queue_item)`. -/
def queue_alloc (fuel : Nat) (q : wd_queue) (cap : Nat) : Option wd_queue :=
  if q.cap ≥ cap then some q
  else
    match double_loop cap fuel (start_cap q.cap) with
    | none => none
    | some c => some { q with cap := c, items := realloc q.items ((c * ITEM_SIZE) % SIZE_MOD) }

/-- Lines 179-185 of `warm_dir`: grow to `len + 1`, let `snprintf` write `written` into slot
`len`, and keep it (`len += 1`) only when the composed path fits (`fits`). -/
def queue_push (fuel : Nat) (q : wd_queue) (written : wd_queue_item) (fits : Bool) :
    Option wd_queue :=
  match queue_alloc fuel q ((q.len + 1) % SIZE_MOD) with
  | none => none
  | some q1 =>
    let q2 := { q1 with items := q1.items.set q1.len written }
    some (if fits then { q2 with len := (q2.len + 1) % SIZE_MOD } else q2)

/-- Lines 148-152 of `run_thread`: take `items[len - 1]` and shrink `len` by one. -/
def queue_pop (q : wd_queue) : wd_queue_item × wd_queue :=
  (q.items.getD ((q.len + SIZE_MOD - 1) % SIZE_MOD) default,
   { q with len := (q.len + SIZE_MOD - 1) % SIZE_MOD })

/-- The C type `struct dirent`, reduced to the fields `warm_dir` reads: `d_name`, and whether
`d_type == DT_DIR`. -/
structure dirent where
  d_name : String
  is_dir : Bool
deriving DecidableEq

/-- The directory tree as `opendir` and `readdir` present it. -/
structure FileSystem where
  /-- Whether `opendir(path)` succeeds. -/
  readable : String → Bool
  /-- The entries `readdir` yields under `path`, in order. -/
  entries : String → List dirent

/-- Return value of `snprintf(buf, PATH_MAX, "%s/%s", path, name)`: the length of the
composed text. -/
def snprintf_len (path name : String) : Nat := path.utf8ByteSize + 1 + name.utf8ByteSize

/-- The text `snprintf(buf, PATH_MAX, "%s/%s", path, name)` composes. -/
def child_path (path name : String) : String := path ++ "/" ++ name

/-- One iteration of the `readdir` loop of `warm_dir` (lines 174-196) for the entry `ent`:
`acc.1` are the stored items of `q`, `acc.2` is `*count`. -/
def warm_entry (path : String) (acc : List String × Nat) (ent : dirent) : List String × Nat :=
  if ent.is_dir then
    if ent.d_name = "." then acc
    else if ent.d_name = ".." then acc
    else if snprintf_len path ent.d_name < PATH_MAX then
      (acc.1 ++ [child_path path ent.d_name], acc.2 + 1)
    else acc
  else
    if snprintf_len path ent.d_name < PATH_MAX then (acc.1, acc.2 + 1) else acc

/-- Source function `warm_dir(path, q, count)`: returns the stored items of `q` and `*count`
afterwards. -/
def warm_dir (fs : FileSystem) (path : String) (q : List String) (count : Nat) :
    List String × Nat :=
  if !fs.readable path then (q, count)
  else (fs.entries path).foldl (warm_entry path) (q, count)

/-- Local variables of one `run_thread` call. `local_path` is `some p` between the dequeue of
`p` (line 152) and the end of `warm_dir(local_path, ...)` (line 157); `done` is set once the
loop is left (line 136). -/
structure Worker where
  local_q : List String
  starved : Bool
  local_path : Option String
  done : Bool
  count : Nat
deriving DecidableEq

/-- Globals `queue` (its stored items) and `num_active`, the `total` of `main`, and the
workers. -/
structure State where
  queue : List String
  num_active : Int
  total : Nat
  workers : List Worker
deriving DecidableEq

/-- Lines 84-89 of `main`: `total = 1`, then `warm_dir(root, &queue, &total)` per root. -/
def seed (fs : FileSystem) (roots : List String) : List String × Nat :=
  roots.foldl (fun acc r => warm_dir fs r acc.1 acc.2) ([], 1)

/-- State of the program when `main` has seeded the queue and the `num_threads` workers
have not yet entered their loop. -/
def main_init (fs : FileSystem) (num_threads : Nat) (roots : List String) : State :=
  { queue := (seed fs roots).1,
    num_active := num_threads,
    total := (seed fs roots).2,
    workers := List.replicate num_threads
      { local_q := [], starved := false, local_path := none, done := false, count := 0 } }

/-- Lines 98-101 of `main`: the total printed once every worker has been joined. -/
def main_total (s : State) : Nat := s.total + (s.workers.map Worker.count).sum

/-- Lines 125-154 of `run_thread`, one critical section of worker `i` whose locals are `w`. -/
def critical_section (s : State) (i : Nat) (w : Worker) : State :=
  let queue := if w.local_q.length > 0 then s.queue ++ w.local_q else s.queue
  let local_q := if w.local_q.length > 0 then [] else w.local_q
  let num_active := if !w.starved then s.num_active - 1 else s.num_active
  if queue.length ≤ 0 then
    if num_active ≤ 0 then
      { s with queue := queue, num_active := num_active,
               workers := s.workers.set i { w with local_q := local_q, done := true } }
    else
      { s with queue := queue, num_active := num_active,
               workers := s.workers.set i { w with local_q := local_q, starved := true } }
  else
    { s with queue := queue.dropLast, num_active := num_active + 1,
             workers := s.workers.set i
               { w with local_q := local_q, starved := false, local_path := queue.getLast? } }

/-- Line 157 of `run_thread`: `warm_dir(local_path, &local, count)` by worker `i`. -/
def expand_path (fs : FileSystem) (s : State) (i : Nat) (w : Worker) (p : String) : State :=
  { s with
    workers := s.workers.set i
      { w with local_q := (warm_dir fs p w.local_q w.count).1,
               count := (warm_dir fs p w.local_q w.count).2,
               local_path := none } }

/-- One step of worker `i`: its next critical section, or the expansion of the path it has
dequeued. A worker that has left its loop, or an index that names no worker, takes no step. -/
def run_thread_step (fs : FileSystem) (s : State) (i : Nat) : State :=
  match s.workers[i]? with
  | none => s
  | some w =>
    if w.done then s
    else
      match w.local_path with
      | some p => expand_path fs s i w p
      | none => critical_section s i w

/-- The state after the workers named by `sched` have taken their steps in that order. -/
def run_schedule (fs : FileSystem) (s : State) (sched : List Nat) : State :=
  sched.foldl (run_thread_step fs) s

/-- Every worker has left its loop. -/
def all_done (s : State) : Bool := s.workers.all (fun w => w.done)

/-- What `main` prints: the total, once every worker has been joined. -/
def report (s : State) : Option Nat := if all_done s then some (main_total s) else none

/-- The run with one worker, after `k` steps of that worker. -/
def single_run (fs : FileSystem) (roots : List String) (k : Nat) : State :=
  run_schedule fs (main_init fs 1 roots) (List.replicate k 0)

/-- The state after the first `t` steps of the infinite schedule `sched`. -/
def state_at (fs : FileSystem) (s : State) (sched : Nat → Nat) : Nat → State
  | 0 => s
  | t + 1 => run_thread_step fs (state_at fs s sched t) (sched t)

/-- An infinite schedule is fair when each of the `n` workers is scheduled again after every
point in time. -/
def Fair (n : Nat) (sched : Nat → Nat) : Prop :=
  ∀ i, i < n → ∀ t, ∃ t', t ≤ t' ∧ sched t' = i

/-- Whether worker `w` counts as active: neither starved nor out of its loop. -/
def is_active (w : Worker) : Bool := !w.starved && !w.done

/-- The tree of the scenario: root `R` holds directories `A`, `B` and file `f`; `A` holds file
`g`; `B` is empty. With `dots`, `readdir` also lists the links `.` and `..`. -/
def scenario_fs (dots : Bool) : FileSystem :=
  let links : List dirent := if dots then [⟨".", true⟩, ⟨"..", true⟩] else []
  { readable := fun p => p = "R" || p = "R/A" || p = "R/B"
    entries := fun p =>
      if p = "R" then links ++ [⟨"A", true⟩, ⟨"B", true⟩, ⟨"f", false⟩]
      else if p = "R/A" then links ++ [⟨"g", false⟩]
      else if p = "R/B" then links
      else [] }


/-- Contribution of worker `w` to `num_active`. -/
def active_ind (w : Worker) : Nat := if is_active w then 1 else 0

/-- Amount by which worker `w` lowers `num_active` at line 130. -/
def decrement (w : Worker) : Int := if w.starved then 0 else 1

/-- The four kinds of step of worker `i`, spelled out on the state: the expansion of the
dequeued path, and the three exits of the critical section (done, starved, dequeue). -/
inductive Transition (fs : FileSystem) (i : Nat) : State → State → Prop
  | expand (l1 l2 : List Worker) (w : Worker) (p : String) (q : List String) (n : Int)
      (t : Nat) : l1.length = i → w.done = false → w.local_path = some p →
      Transition fs i ⟨q, n, t, l1 ++ w :: l2⟩
        ⟨q, n, t, l1 ++ { w with local_q := (warm_dir fs p w.local_q w.count).1,
                                 count := (warm_dir fs p w.local_q w.count).2,
                                 local_path := none } :: l2⟩
  | finish (l1 l2 : List Worker) (w : Worker) (n : Int) (t : Nat) :
      l1.length = i → w.done = false → w.local_path = none → w.local_q = [] →
      n - decrement w ≤ 0 →
      Transition fs i ⟨[], n, t, l1 ++ w :: l2⟩
        ⟨[], n - decrement w, t, l1 ++ { w with done := true } :: l2⟩
  | starve (l1 l2 : List Worker) (w : Worker) (n : Int) (t : Nat) :
      l1.length = i → w.done = false → w.local_path = none → w.local_q = [] →
      0 < n - decrement w →
      Transition fs i ⟨[], n, t, l1 ++ w :: l2⟩
        ⟨[], n - decrement w, t, l1 ++ { w with starved := true } :: l2⟩
  | dequeue (l1 l2 : List Worker) (w : Worker) (p : String) (q q' : List String) (n : Int)
      (t : Nat) : l1.length = i → w.done = false → w.local_path = none →
      q ++ w.local_q = q' ++ [p] →
      Transition fs i ⟨q, n, t, l1 ++ w :: l2⟩
        ⟨q', n - decrement w + 1, t,
          l1 ++ { w with local_q := [], starved := false, local_path := some p } :: l2⟩

/-- Invariant of the worker protocol. -/
structure Inv (s : State) : Prop where
  active : s.num_active = ((s.workers.map active_ind).sum : Nat)
  idle : ∀ w ∈ s.workers, (w.starved = true ∨ w.done = true) →
    w.local_q = [] ∧ w.local_path = none
  final : (∃ w ∈ s.workers, w.done = true) →
    s.queue = [] ∧ ∀ w ∈ s.workers, w.starved = true ∨ w.done = true

/-- The directories `warm_dir(p, ...)` appends to its queue. -/
def expand_dirs (fs : FileSystem) (p : String) : List String := (warm_dir fs p [] 0).1

/-- The number `warm_dir(p, ...)` adds to its count. -/
def expand_count (fs : FileSystem) (p : String) : Nat := (warm_dir fs p [] 0).2

/-- A finite tree: `h` bounds the height, it drops from a directory to each of its child
directories (the links `.` and `..` apart). -/
def FiniteTree (fs : FileSystem) (h : String → Nat) : Prop :=
  ∀ p, ∀ e ∈ fs.entries p, e.is_dir = true → e.d_name ≠ "." → e.d_name ≠ ".." →
    h (child_path p e.d_name) < h p

/-- Sum of `c` over `p` and every directory the traversal reaches below `p`, to depth
`fuel`. -/
def tree_sum (fs : FileSystem) (c : String → Nat) : Nat → String → Nat
  | 0, _ => 0
  | fuel + 1, p => c p + ((expand_dirs fs p).map (tree_sum fs c fuel)).sum

/-- Sum of `c` over the whole subtree of `p` in a tree of height `h`. -/
def subtree_sum (fs : FileSystem) (h : String → Nat) (c : String → Nat) (p : String) : Nat :=
  tree_sum fs c (h p + 1) p

/-- Sum of `f` over the paths worker `w` holds: its local queue and its dequeued path. -/
def held (f : String → Nat) (w : Worker) : Nat :=
  (w.local_q.map f).sum + (w.local_path.toList.map f).sum

/-- Sum of `f` over all paths waiting in the state: the shared queue and what workers hold. -/
def pending (f : String → Nat) (s : State) : Nat :=
  (s.queue.map f).sum + (s.workers.map (held f)).sum

/-- Position of a worker in its loop, for the progress measure. -/
def rank (w : Worker) : Nat :=
  if w.done then 0 else if w.local_path.isSome then 1 else if w.starved then 2 else 3

/-- Progress measure: three per directory still to expand, plus the ranks of the workers. -/
def measure (fs : FileSystem) (h : String → Nat) (s : State) : Nat :=
  3 * pending (subtree_sum fs h (fun _ => 1)) s + (s.workers.map rank).sum

/-- The total every finished run prints: what `main` counts while seeding plus the entries
found below the seeded directories. -/
def expected_total (fs : FileSystem) (h : String → Nat) (roots : List String) : Nat :=
  (seed fs roots).2 + ((seed fs roots).1.map (subtree_sum fs h (expand_count fs))).sum

/-- Whether a directory entry is one of the links `.` and `..`. -/
def is_link (e : dirent) : Bool := e.d_name = "." || e.d_name = ".."

/-- Height function of the tree of the scenario. -/
def scenario_height (p : String) : Nat := if p = "R" then 1 else 0

theorem double_loop_exact (n : Nat) : ∀ (k fuel c : Nat), 1 ≤ k → k ≤ fuel →
    (∀ j, 1 ≤ j → j < k → c * 2 ^ j < n) → n ≤ c * 2 ^ k → c * 2 ^ k < SIZE_MOD →
    double_loop n fuel c = some (c * 2 ^ k) := by
  intro k
  induction k with
  | zero => intro fuel c h; omega
  | succ k ih =>
    intro fuel c _ hfuel hleast hge hlt
    obtain ⟨f, rfl⟩ : ∃ f, fuel = f + 1 := ⟨fuel - 1, by omega⟩
    have hpow : c * 2 ^ (k + 1) = c * 2 * 2 ^ k := by rw [pow_succ]; ring
    have hpos : 1 ≤ 2 ^ k := Nat.one_le_two_pow
    have hc2 : c * 2 < SIZE_MOD := by
      have : c * 2 * 1 ≤ c * 2 * 2 ^ k := Nat.mul_le_mul_left _ hpos
      omega
    unfold double_loop
    simp only [Nat.mod_eq_of_lt hc2]
    rcases Nat.eq_zero_or_pos k with hk0 | hkpos
    · subst hk0
      have : ¬ c * 2 < n := by simpa using hge
      simp [this]
    · have h1 : c * 2 < n := by simpa using hleast 1 (le_refl _) (by omega)
      simp only [h1, if_true]
      rw [hpow]
      apply ih f (c * 2) hkpos (by omega)
      · intro j hj1 hjk
        have := hleast (j + 1) (by omega) (by omega)
        rw [pow_succ] at this
        calc c * 2 * 2 ^ j = c * (2 ^ j * 2) := by ring
          _ < n := this
      · rw [← hpow]; exact hge
      · rw [← hpow]; exact hlt

theorem exists_least_doubling (c n : Nat) (hc : 1 ≤ c) :
    ∃ k, 1 ≤ k ∧ n ≤ c * 2 ^ k ∧ ∀ j, 1 ≤ j → j < k → c * 2 ^ j < n := by
  have hex : ∃ k, 1 ≤ k ∧ n ≤ c * 2 ^ k := by
    refine ⟨n + 1, by omega, ?_⟩
    have h1 : n + 1 < 2 ^ (n + 1) := Nat.lt_two_pow (n + 1)
    have h2 : 1 * 2 ^ (n + 1) ≤ c * 2 ^ (n + 1) := Nat.mul_le_mul_right _ hc
    omega
  classical
  refine ⟨Nat.find hex, (Nat.find_spec hex).1, (Nat.find_spec hex).2, ?_⟩
  intro j hj1 hjk
  have := Nat.find_min hex hjk
  by_contra hcon
  exact this ⟨hj1, by omega⟩

theorem start_cap_pos (c : Nat) : 1 ≤ start_cap c := by
  unfold start_cap; split <;> omega

theorem start_cap_ge (c : Nat) : c ≤ start_cap c := by
  unfold start_cap; split <;> omega

theorem realloc_length (items : List wd_queue_item) (size : Nat) :
    (realloc items size).length = size / ITEM_SIZE := by
  simp [realloc]; omega

theorem realloc_take (items : List wd_queue_item) (size l : Nat) (hl : l ≤ items.length)
    (hc : l ≤ size / ITEM_SIZE) : (realloc items size).take l = items.take l := by
  unfold realloc
  rw [List.take_append_of_le_length (by simp; omega), List.take_take]
  simp [hc]

/-- The byte count `c * sizeof(item)` gives back `c` slots when it does not wrap. -/
theorem bytes_fit (c : Nat) (h : c * ITEM_SIZE < SIZE_MOD) :
    (c * ITEM_SIZE) % SIZE_MOD / ITEM_SIZE = c := by
  rw [Nat.mod_eq_of_lt h]
  exact Nat.mul_div_cancel c (by unfold ITEM_SIZE PATH_MAX; norm_num)

/-- Behaviour of `queue_alloc` when it has to grow and no doubling overflows. -/
theorem queue_alloc_grow (q : wd_queue) (n : Nat) (hlt : q.cap < n)
    (hno : ∀ j, (j = 0 ∨ start_cap q.cap * 2 ^ j < n) → start_cap q.cap * 2 ^ (j + 1) < SIZE_MOD) :
    ∃ k q', 1 ≤ k ∧ k ≤ 64 ∧ (∀ fuel, k ≤ fuel → queue_alloc fuel q n = some q') ∧
      q'.cap = start_cap q.cap * 2 ^ k ∧ n ≤ start_cap q.cap * 2 ^ k ∧
      (∀ j, 1 ≤ j → j < k → start_cap q.cap * 2 ^ j < n) ∧
      q'.len = q.len ∧
      q'.items = realloc q.items ((start_cap q.cap * 2 ^ k * ITEM_SIZE) % SIZE_MOD) := by
  obtain ⟨k, hk1, hge, hleast⟩ := exists_least_doubling (start_cap q.cap) n (start_cap_pos _)
  have hov : start_cap q.cap * 2 ^ k < SIZE_MOD := by
    obtain ⟨j, rfl⟩ : ∃ j, k = j + 1 := ⟨k - 1, by omega⟩
    apply hno
    rcases Nat.eq_zero_or_pos j with h0 | hp
    · exact Or.inl h0
    · exact Or.inr (hleast j hp (by omega))
  have hk64 : k ≤ 64 := by
    by_contra hcon
    have h1 : 2 ^ 64 ≤ 2 ^ k := Nat.pow_le_pow_right (by norm_num) (by omega)
    have h2 : 1 * 2 ^ k ≤ start_cap q.cap * 2 ^ k := Nat.mul_le_mul_right _ (start_cap_pos _)
    unfold SIZE_MOD at hov
    omega
  refine ⟨k, { q with cap := start_cap q.cap * 2 ^ k,
                      items := realloc q.items
                        ((start_cap q.cap * 2 ^ k * ITEM_SIZE) % SIZE_MOD) },
    hk1, hk64, ?_, rfl, hge, hleast, rfl, rfl⟩
  intro fuel hfuel
  unfold queue_alloc
  rw [if_neg (by omega), double_loop_exact n k fuel _ hk1 hfuel hleast hge hov]

theorem double_loop_stuck (n : Nat) (hn : 2 ^ 63 < n) : ∀ (fuel c : Nat),
    (c = 0 ∨ ∃ j, j ≤ 63 ∧ c = 2 ^ j) → double_loop n fuel c = none := by
  intro fuel
  induction fuel with
  | zero => intro c _; rfl
  | succ f ih =>
    intro c hc
    unfold double_loop
    have key : (c * 2) % SIZE_MOD < n ∧
        ((c * 2) % SIZE_MOD = 0 ∨ ∃ j, j ≤ 63 ∧ (c * 2) % SIZE_MOD = 2 ^ j) := by
      rcases hc with rfl | ⟨j, hj, rfl⟩
      · exact ⟨by simp; omega, Or.inl (by simp)⟩
      · rcases Nat.lt_or_ge j 63 with hlt | hge
        · have h1 : 2 ^ j * 2 = 2 ^ (j + 1) := by rw [pow_succ]
          have h2 : 2 ^ (j + 1) ≤ 2 ^ 63 := Nat.pow_le_pow_right (by norm_num) (by omega)
          have h3 : 2 ^ (j + 1) % SIZE_MOD = 2 ^ (j + 1) := by
            apply Nat.mod_eq_of_lt; unfold SIZE_MOD; omega
          rw [h1, h3]
          exact ⟨by omega, Or.inr ⟨j + 1, by omega, rfl⟩⟩
        · have hj63 : j = 63 := by omega
          subst hj63
          have : (2 ^ 63 * 2) % SIZE_MOD = 0 := by unfold SIZE_MOD; norm_num
          rw [this]
          exact ⟨by omega, Or.inl rfl⟩
    simp only [key.1, if_true]
    exact ih _ key.2

/-- On a block of `cap` slots that fits the address space, growing to at most `2 ^ 51`
slots terminates within 64 doublings, the byte size of the new block does not wrap, and
the stored items are kept. -/
theorem queue_alloc_valid (q : wd_queue) (n : Nat) (hq : q.valid) (hn : n ≤ 2 ^ 51) :
    ∃ q', (∀ fuel, 64 ≤ fuel → queue_alloc fuel q n = some q') ∧ q'.valid ∧ n ≤ q'.cap ∧
      q.cap ≤ q'.cap ∧ q'.len = q.len ∧ q'.items.take q.len = q.items.take q.len := by
  have hq' := hq
  obtain ⟨hlen, hblk, haddr⟩ := hq'
  by_cases hge : n ≤ q.cap
  · exact ⟨q, fun fuel _ => by unfold queue_alloc; rw [if_pos hge], hq, hge, le_refl _, rfl, rfl⟩
  · have hsc : start_cap q.cap < 2 ^ 51 := by
      unfold start_cap; split <;> omega
    obtain ⟨k, q', hk1, hk64, hrun, hcap, hge', hleast, hl, hitems⟩ :=
      queue_alloc_grow q n (by omega) (by
        intro j hj
        rw [pow_succ, ← Nat.mul_assoc]
        unfold SIZE_MOD
        rcases hj with rfl | hj
        · simp; omega
        · omega)
    have hsmall : start_cap q.cap * 2 ^ k < 2 ^ 52 := by
      obtain ⟨j, rfl⟩ : ∃ j, k = j + 1 := ⟨k - 1, by omega⟩
      rw [pow_succ, ← Nat.mul_assoc]
      rcases Nat.eq_zero_or_pos j with h0 | hp
      · subst h0; simp; omega
      · have := hleast j hp (by omega)
        omega
    have hfit : start_cap q.cap * 2 ^ k * ITEM_SIZE < SIZE_MOD := by
      unfold ITEM_SIZE PATH_MAX SIZE_MOD
      omega
    have hcge : q.cap ≤ start_cap q.cap * 2 ^ k := by
      have h1 : start_cap q.cap * 1 ≤ start_cap q.cap * 2 ^ k :=
        Nat.mul_le_mul_left _ Nat.one_le_two_pow
      have := start_cap_ge q.cap
      omega
    have hlen' : q'.items.length = q'.cap := by
      rw [hitems, hcap, realloc_length, bytes_fit _ hfit]
    refine ⟨q', fun fuel hf => hrun fuel (by omega), ⟨by rw [hl, hcap]; omega, hlen', ?_⟩,
      by omega, by rw [hcap]; exact hcge, hl, ?_⟩
    · rw [hcap]; exact hfit
    · rw [hitems]
      exact realloc_take _ _ _ (by omega) (by rw [bytes_fit _ hfit]; omega)

/-- Effect of the grow-then-append of `warm_dir` on a well-formed container of fewer than
`2 ^ 51` items. -/
theorem queue_push_valid (q : wd_queue) (hq : q.valid) (hroom : q.len < 2 ^ 51)
    (written : wd_queue_item) (fits : Bool) :
    ∃ q', (∀ fuel, 64 ≤ fuel → queue_push fuel q written fits = some q') ∧
      q'.valid ∧ q.len < q'.cap ∧
      q'.len = (if fits then q.len + 1 else q.len) ∧
      q'.contents = (if fits then q.contents ++ [written] else q.contents) := by
  have hq' := hq
  obtain ⟨hlen, hblk, haddr⟩ := hq'
  have hmod : (q.len + 1) % SIZE_MOD = q.len + 1 := by
    apply Nat.mod_eq_of_lt; unfold SIZE_MOD; omega
  obtain ⟨q1, hrun, ⟨_, hb, haddr1⟩, hge, _, hl, htk⟩ :=
    queue_alloc_valid q (q.len + 1) hq (by omega)
  have hidx : q.len < q1.items.length := by omega
  have htake : (q1.items.set q.len written).take q.len = q.items.take q.len := by
    rw [List.set_take, ← htk]
    exact List.set_eq_of_length_le (by simp)
  cases fits
  · refine ⟨{ q1 with items := q1.items.set q1.len written }, ?_, ⟨?_, ?_, haddr1⟩, ?_, ?_, ?_⟩
    · intro fuel hfuel
      unfold queue_push
      simp [hmod, hrun fuel hfuel]
    · show q1.len ≤ q1.cap; omega
    · show (q1.items.set q1.len written).length = q1.cap; simp [hb]
    · show q.len < q1.cap; omega
    · show q1.len = _; simp [hl]
    · show (q1.items.set q1.len written).take q1.len = _
      simp only [Bool.false_eq_true, if_false, wd_queue.contents, hl]
      exact htake
  · refine ⟨{ q1 with items := q1.items.set q1.len written, len := q.len + 1 },
      ?_, ⟨?_, ?_, haddr1⟩, ?_, ?_, ?_⟩
    · intro fuel hfuel
      unfold queue_push
      simp [hmod, hrun fuel hfuel, hl]
    · show q.len + 1 ≤ q1.cap; omega
    · show (q1.items.set q1.len written).length = q1.cap; simp [hb]
    · show q.len < q1.cap; omega
    · show q.len + 1 = _; simp
    · show (q1.items.set q1.len written).take (q.len + 1) = _
      simp only [if_true, wd_queue.contents, hl]
      rw [List.take_succ, htake]
      simp [List.getElem?_set, hidx]

/-- Effect of the pop of `run_thread` on a non-empty well-formed container. -/
theorem queue_pop_valid (q : wd_queue) (hq : q.valid) (hpos : 0 < q.len) :
    (queue_pop q).2.len + 1 = q.len ∧ (queue_pop q).2.cap = q.cap ∧
      (queue_pop q).2.items = q.items ∧
      q.contents = (queue_pop q).2.contents ++ [(queue_pop q).1] := by
  obtain ⟨hlen, hblk, haddr⟩ := hq
  unfold ITEM_SIZE PATH_MAX SIZE_MOD at haddr
  have hmod : (q.len + SIZE_MOD - 1) % SIZE_MOD = q.len - 1 := by
    have hS : 1 ≤ SIZE_MOD := by unfold SIZE_MOD; norm_num
    have h1 : q.len + SIZE_MOD - 1 = (q.len - 1) + SIZE_MOD := by omega
    rw [h1, Nat.add_mod_right]
    apply Nat.mod_eq_of_lt; unfold SIZE_MOD; omega
  have hidx : q.len - 1 < q.items.length := by omega
  have hq2 : queue_pop q = (q.items.getD (q.len - 1) default, { q with len := q.len - 1 }) := by
    unfold queue_pop
    rw [hmod]
  rw [hq2]
  refine ⟨by show q.len - 1 + 1 = q.len; omega, rfl, rfl, ?_⟩
  show List.take q.len q.items = List.take (q.len - 1) q.items ++ [q.items.getD (q.len - 1) default]
  conv_lhs => rw [show q.len = (q.len - 1) + 1 by omega]
  rw [List.take_succ]
  simp [List.getD_eq_getElem?_getD, List.getElem?_eq_getElem hidx]

theorem realloc_zero (items : List wd_queue_item) : realloc items 0 = [] := by
  simp [realloc]
theorem bytes_wrap_52 : (2 ^ 52 * ITEM_SIZE) % SIZE_MOD = 0 := by
  unfold ITEM_SIZE PATH_MAX SIZE_MOD; norm_num

/-- On the zero-initialised container the request `2 ^ 52` leaves the capacity field at
`2 ^ 52` over a block of no slots: the byte count `2 ^ 52 * 4096` has wrapped to 0. From
there on `cap` bounds `len` but no longer the block. -/
theorem queue_alloc_zero_block (k : Nat) :
    queue_alloc (64 + k) wd_queue.zero (2 ^ 52) = some { items := [], len := 0, cap := 2 ^ 52 } := by
  have hs : start_cap wd_queue.zero.cap = 1 := by decide
  have hloop : double_loop (2 ^ 52) (64 + k) 1 = some (1 * 2 ^ 52) := by
    apply double_loop_exact (2 ^ 52) 52 (64 + k) 1 (by omega) (by omega)
    · intro j hj1 hj2
      rw [one_mul]
      exact Nat.pow_lt_pow_right (by norm_num) hj2
    · norm_num
    · unfold SIZE_MOD; norm_num
  rw [one_mul] at hloop
  unfold queue_alloc
  rw [if_neg (by show ¬ (0 ≥ 2 ^ 52); norm_num)]
  simp only [hs, hloop, bytes_wrap_52, realloc_zero]
  rfl

/-- C10 (evaluation at the failing input): on the zero-initialised queue of `main`, with the
requested capacity `2 ^ 63 + 1` (option `--init-queue-size 9223372036854775809`), the
doubling loop of `queue_alloc` has not exited after any number of iterations. -/
theorem queue_alloc_hangs : ∀ fuel, queue_alloc fuel wd_queue.zero (2 ^ 63 + 1) = none := by
  intro fuel
  unfold queue_alloc
  have h := double_loop_stuck (2 ^ 63 + 1) (by omega) fuel (start_cap wd_queue.zero.cap)
    (Or.inr ⟨0, by omega, by decide⟩)
  rw [h]
  rfl

/-! ## Worker protocol: steps and invariant -/

theorem split_at {α : Type} (ws : List α) (i : Nat) (w : α) (h : ws[i]? = some w) :
    ∃ l1 l2, ws = l1 ++ w :: l2 ∧ l1.length = i := by
  have hi : i < ws.length := by
    by_contra hcon
    rw [List.getElem?_eq_none (by omega)] at h
    exact absurd h (by simp)
  refine ⟨ws.take i, ws.drop (i + 1), ?_, by simp; omega⟩
  have hw : ws[i] = w := by
    rw [List.getElem?_eq_getElem hi] at h
    exact Option.some.inj h
  rw [← hw, List.getElem_cons_drop _ _ hi, List.take_append_drop]

theorem set_split {α : Type} (l1 l2 : List α) (w w' : α) :
    (l1 ++ w :: l2).set l1.length w' = l1 ++ w' :: l2 := by
  rw [List.set_append_right _ _ (le_refl _)]
  simp

theorem getElem?_split {α : Type} (l1 l2 : List α) (w : α) :
    (l1 ++ w :: l2)[l1.length]? = some w := by
  rw [List.getElem?_append_right (le_refl _)]
  simp

/-- A step of a worker that is still in its loop is one of the four transitions. -/
theorem step_of_worker (fs : FileSystem) (s : State) (i : Nat) (w : Worker)
    (hw : s.workers[i]? = some w) (hd' : w.done = false) :
    Transition fs i s (run_thread_step fs s i) := by
  unfold run_thread_step
  rw [hw]
  obtain ⟨l1, l2, hws, hl1⟩ := split_at s.workers i w hw
  obtain ⟨q, n, t, ws⟩ := s
  simp only at hws hw ⊢
  subst hws
  subst hl1
  simp only [hd', Bool.false_eq_true, if_false]
  cases hp : w.local_path with
  | some p =>
    simp only [expand_path, set_split]
    exact Transition.expand l1 l2 w p q n t rfl hd' hp
  | none =>
    have hq : (if w.local_q.length > 0 then q ++ w.local_q else q) = q ++ w.local_q := by
      split
      · rfl
      · have : w.local_q = [] := List.eq_nil_of_length_eq_zero (by omega)
        simp [this]
    have hl : (if w.local_q.length > 0 then [] else w.local_q) = [] := by
      split
      · rfl
      · exact List.eq_nil_of_length_eq_zero (by omega)
    have hn : (if (!w.starved) = true then n - 1 else n) = n - decrement w := by
      unfold decrement
      cases w.starved <;> simp
    simp only [critical_section, hq, hl, hn, set_split]
    by_cases hempty : (q ++ w.local_q).length ≤ 0
    · have hnil : q ++ w.local_q = [] := List.eq_nil_of_length_eq_zero (by omega)
      obtain ⟨hq0, hl0⟩ := List.append_eq_nil.mp hnil
      subst hq0
      simp only [hnil, List.length_nil, le_refl, if_true]
      by_cases hle : n - decrement w ≤ 0
      · simp only [hle, if_true]
        have : Transition fs _ _ _ := Transition.finish l1 l2 w n t rfl hd' hp hl0 hle
        convert this using 3
        cases w; simp_all
      · simp only [hle, if_false]
        have : Transition fs _ _ _ := Transition.starve l1 l2 w n t rfl hd' hp hl0 (by omega)
        convert this using 3
        cases w; simp_all
    · simp only [hempty, if_false]
      have hne : q ++ w.local_q ≠ [] := by
        intro h; rw [h] at hempty; simp at hempty
      obtain ⟨p, hlast⟩ : ∃ p, (q ++ w.local_q).getLast? = some p := by
        cases h : (q ++ w.local_q).getLast? with
        | none => exact absurd (List.getLast?_eq_none_iff.mp h) hne
        | some p => exact ⟨p, rfl⟩
      have hsplit : q ++ w.local_q = (q ++ w.local_q).dropLast ++ [p] := by
        exact (List.dropLast_append_getLast? p (Option.mem_def.mpr hlast)).symm
      rw [hlast]
      exact Transition.dequeue l1 l2 w p q _ n t rfl hd' hp hsplit

/-- A step of worker `i` leaves the state as it is or is one of the four transitions. -/
theorem step_transition (fs : FileSystem) (s : State) (i : Nat) :
    run_thread_step fs s i = s ∨ Transition fs i s (run_thread_step fs s i) := by
  cases hw : s.workers[i]? with
  | none => left; unfold run_thread_step; rw [hw]
  | some w =>
    cases hd : w.done with
    | true => left; unfold run_thread_step; rw [hw]; simp [hd]
    | false => exact Or.inr (step_of_worker fs s i w hw hd)

theorem active_ind_eq_zero (w : Worker) :
    active_ind w = 0 ↔ (w.starved = true ∨ w.done = true) := by
  unfold active_ind is_active
  cases w.starved <;> cases w.done <;> simp

theorem active_ind_of_not_done (w : Worker) (h : w.done = false) :
    (active_ind w : Int) = decrement w := by
  unfold active_ind is_active decrement
  rw [h]
  cases w.starved <;> simp

theorem sum_active_zero (ws : List Worker) :
    (ws.map active_ind).sum = 0 ↔ ∀ w ∈ ws, w.starved = true ∨ w.done = true := by
  induction ws with
  | nil => simp
  | cons w ws ih =>
    simp only [List.map_cons, List.sum_cons, Nat.add_eq_zero, ih, List.mem_cons,
      forall_eq_or_imp, active_ind_eq_zero]

theorem sum_active_le (ws : List Worker) : (ws.map active_ind).sum ≤ ws.length := by
  induction ws with
  | nil => simp
  | cons w ws ih =>
    simp only [List.map_cons, List.sum_cons, List.length_cons]
    have : active_ind w ≤ 1 := by unfold active_ind; split <;> omega
    omega

theorem sum_active_split (l1 l2 : List Worker) (w : Worker) :
    ((l1 ++ w :: l2).map active_ind).sum
      = (l1.map active_ind).sum + (l2.map active_ind).sum + active_ind w := by
  simp only [List.map_append, List.map_cons, List.sum_append, List.sum_cons]
  omega

theorem idle_of_sum_zero (l1 l2 : List Worker) (h : (l1.map active_ind).sum + (l2.map active_ind).sum = 0) :
    ∀ x, x ∈ l1 ∨ x ∈ l2 → x.starved = true ∨ x.done = true := by
  intro x hx
  rcases hx with hx | hx
  · exact (sum_active_zero l1).mp (by omega) x hx
  · exact (sum_active_zero l2).mp (by omega) x hx

/-- The protocol invariant holds when the workers start. -/
theorem inv_init (fs : FileSystem) (n : Nat) (roots : List String) :
    Inv (main_init fs n roots) := by
  refine ⟨?_, ?_, ?_⟩
  · show ((n : Nat) : Int) = _
    congr 1
    simp only [main_init, List.map_replicate, List.sum_replicate, smul_eq_mul]
    simp [active_ind, is_active]
  · intro w hw hidle
    simp only [main_init] at hw
    have := List.eq_of_mem_replicate hw
    subst this
    simp at hidle
  · rintro ⟨w, hw, hd⟩
    simp only [main_init] at hw
    have := List.eq_of_mem_replicate hw
    subst this
    simp at hd

/-- Every transition preserves the protocol invariant. -/
theorem inv_transition (fs : FileSystem) (i : Nat) (s s' : State) (h : Transition fs i s s')
    (hinv : Inv s) : Inv s' := by
  obtain ⟨hact, hidle, hfinal⟩ := hinv
  cases h with
  | expand l1 l2 w p q n t hl hd hp =>
    simp only at hact hidle hfinal
    have hns : w.starved = false := by
      by_contra hcon
      have := (hidle w (by simp) (Or.inl (by simpa using hcon))).2
      rw [hp] at this
      exact absurd this (by simp)
    have hnot_final : ¬ ∃ x ∈ l1 ++ w :: l2, x.done = true := by
      intro hex
      have := (hfinal hex).2 w (by simp)
      rw [hns, hd] at this
      simp at this
    refine ⟨?_, ?_, ?_⟩
    · simp only [sum_active_split] at hact ⊢
      rw [hact]
      simp [active_ind, is_active, hns, hd]
    · intro x hx hxi
      simp only [List.mem_append, List.mem_cons] at hx
      rcases hx with hx | rfl | hx
      · exact hidle x (by simp [hx]) hxi
      · simp only [hns, hd] at hxi; simp at hxi
      · exact hidle x (by simp [hx]) hxi
    · rintro ⟨x, hx, hxd⟩
      exfalso
      apply hnot_final
      simp only [List.mem_append, List.mem_cons] at hx
      rcases hx with hx | rfl | hx
      · exact ⟨x, by simp [hx], hxd⟩
      · simp only [hd] at hxd; simp at hxd
      · exact ⟨x, by simp [hx], hxd⟩
  | finish l1 l2 w n t hl hd hp hq hle =>
    simp only at hact hidle hfinal
    have hsum : ((l1.map active_ind).sum : Int) + ((l2.map active_ind).sum : Nat)
        = n - decrement w := by
      rw [hact, sum_active_split, ← active_ind_of_not_done w hd]
      push_cast
      ring
    have hzero : (l1.map active_ind).sum + (l2.map active_ind).sum = 0 := by omega
    have hothers := idle_of_sum_zero l1 l2 hzero
    refine ⟨?_, ?_, ?_⟩
    · simp only [sum_active_split]
      rw [← hsum]
      simp [active_ind, is_active]
    · intro x hx hxi
      simp only [List.mem_append, List.mem_cons] at hx
      rcases hx with hx | rfl | hx
      · exact hidle x (by simp [hx]) hxi
      · exact ⟨hq, hp⟩
      · exact hidle x (by simp [hx]) hxi
    · intro _
      refine ⟨rfl, ?_⟩
      intro x hx
      simp only [List.mem_append, List.mem_cons] at hx
      rcases hx with hx | rfl | hx
      · exact hothers x (Or.inl hx)
      · exact Or.inr rfl
      · exact hothers x (Or.inr hx)
  | starve l1 l2 w n t hl hd hp hq hlt =>
    simp only at hact hidle hfinal
    have hsum : ((l1.map active_ind).sum : Int) + ((l2.map active_ind).sum : Nat)
        = n - decrement w := by
      rw [hact, sum_active_split, ← active_ind_of_not_done w hd]
      push_cast
      ring
    refine ⟨?_, ?_, ?_⟩
    · simp only [sum_active_split]
      rw [← hsum]
      simp [active_ind, is_active]
    · intro x hx hxi
      simp only [List.mem_append, List.mem_cons] at hx
      rcases hx with hx | rfl | hx
      · exact hidle x (by simp [hx]) hxi
      · exact ⟨hq, hp⟩
      · exact hidle x (by simp [hx]) hxi
    · rintro ⟨x, hx, hxd⟩
      exfalso
      have hex : ∃ y ∈ l1 ++ w :: l2, y.done = true := by
        simp only [List.mem_append, List.mem_cons] at hx
        rcases hx with hx | rfl | hx
        · exact ⟨x, by simp [hx], hxd⟩
        · simp only [hd] at hxd; simp at hxd
        · exact ⟨x, by simp [hx], hxd⟩
      have hall := (hfinal hex).2
      have h1 : (l1.map active_ind).sum = 0 :=
        (sum_active_zero l1).mpr (fun y hy => hall y (by simp [hy]))
      have h2 : (l2.map active_ind).sum = 0 :=
        (sum_active_zero l2).mpr (fun y hy => hall y (by simp [hy]))
      rw [h1, h2] at hsum
      simp at hsum
      omega
  | dequeue l1 l2 w p q q' n t hl hd hp hq =>
    simp only at hact hidle hfinal
    have hnot_final : ¬ ∃ x ∈ l1 ++ w :: l2, x.done = true := by
      intro hex
      obtain ⟨hq0, hall⟩ := hfinal hex
      have hw := hall w (by simp)
      have := (hidle w (by simp) hw).1
      rw [hq0, this] at hq
      simp at hq
    refine ⟨?_, ?_, ?_⟩
    · simp only [sum_active_split] at hact ⊢
      rw [hact, ← active_ind_of_not_done w hd]
      simp [active_ind, is_active, hd]
    · intro x hx hxi
      simp only [List.mem_append, List.mem_cons] at hx
      rcases hx with hx | rfl | hx
      · exact hidle x (by simp [hx]) hxi
      · simp only [hd] at hxi; simp at hxi
      · exact hidle x (by simp [hx]) hxi
    · rintro ⟨x, hx, hxd⟩
      exfalso
      apply hnot_final
      simp only [List.mem_append, List.mem_cons] at hx
      rcases hx with hx | rfl | hx
      · exact ⟨x, by simp [hx], hxd⟩
      · simp only [hd] at hxd; simp at hxd
      · exact ⟨x, by simp [hx], hxd⟩

theorem inv_step (fs : FileSystem) (s : State) (i : Nat) (hinv : Inv s) :
    Inv (run_thread_step fs s i) := by
  rcases step_transition fs s i with h | h
  · rw [h]; exact hinv
  · exact inv_transition fs i s _ h hinv

theorem inv_schedule (fs : FileSystem) (sched : List Nat) :
    ∀ s, Inv s → Inv (run_schedule fs s sched) := by
  induction sched with
  | nil => intro s h; exact h
  | cons i rest ih =>
    intro s h
    exact ih _ (inv_step fs s i h)

theorem length_transition (fs : FileSystem) (i : Nat) (s s' : State)
    (h : Transition fs i s s') : s'.workers.length = s.workers.length := by
  cases h <;> simp

theorem length_step (fs : FileSystem) (s : State) (i : Nat) :
    (run_thread_step fs s i).workers.length = s.workers.length := by
  rcases step_transition fs s i with h | h
  · rw [h]
  · exact length_transition fs i s _ h

theorem length_schedule (fs : FileSystem) (sched : List Nat) :
    ∀ s, (run_schedule fs s sched).workers.length = s.workers.length := by
  induction sched with
  | nil => intro s; rfl
  | cons i rest ih =>
    intro s
    exact (ih _).trans (length_step fs s i)

theorem sum_active_eq_countP (ws : List Worker) :
    (ws.map active_ind).sum = ws.countP is_active := by
  induction ws with
  | nil => rfl
  | cons w ws ih =>
    simp only [List.map_cons, List.sum_cons, List.countP_cons, ih, active_ind]
    omega

/-- What a step of worker `i` that takes it out of its loop tells about the state before. -/
theorem finish_of_done (fs : FileSystem) (i : Nat) (s s' : State) (w w' : Worker)
    (h : Transition fs i s s') (hw : s.workers[i]? = some w) (hd : w.done = false)
    (hw' : s'.workers[i]? = some w') (hd' : w'.done = true) :
    s.queue = [] ∧ w.local_q = [] ∧ w.local_path = none ∧
      ∀ j, j ≠ i → s'.workers[j]? = s.workers[j]? := by
  cases h with
  | expand l1 l2 w0 p q n t hl hd0 hp =>
    subst hl
    simp only [getElem?_split, Option.some.injEq] at hw hw'
    subst hw'
    simp [hd0] at hd'
  | finish l1 l2 w0 n t hl hd0 hp hq hle =>
    subst hl
    simp only [getElem?_split, Option.some.injEq] at hw
    subst hw
    refine ⟨rfl, hq, hp, ?_⟩
    intro j hj
    show (l1 ++ _ :: l2)[j]? = (l1 ++ w0 :: l2)[j]?
    rw [← set_split l1 l2 w0 { w0 with done := true }]
    exact List.getElem?_set_ne (Ne.symm hj)
  | starve l1 l2 w0 n t hl hd0 hp hq hlt =>
    subst hl
    simp only [getElem?_split, Option.some.injEq] at hw hw'
    subst hw'
    simp [hd0] at hd'
  | dequeue l1 l2 w0 p q q' n t hl hd0 hp hq =>
    subst hl
    simp only [getElem?_split, Option.some.injEq] at hw hw'
    subst hw'
    simp [hd0] at hd'

/-- C1: in every state reached from the start of `n` workers, when the next step of worker
`i` takes it out of its loop (the `break` of line 136), the shared queue is empty before and
after that step, worker `i` had an empty local queue and no dequeued path, every worker then
has an empty local queue and no dequeued path left to expand, and every other worker, which
the step leaves as it was, is starved or out of its loop. -/
theorem no_premature_termination (fs : FileSystem) (n : Nat) (roots : List String)
    (sched : List Nat) (i : Nat) (w w' : Worker)
    (hw : (run_schedule fs (main_init fs n roots) sched).workers[i]? = some w)
    (hd : w.done = false)
    (hw' : (run_thread_step fs (run_schedule fs (main_init fs n roots) sched) i).workers[i]?
      = some w')
    (hd' : w'.done = true) :
    (run_schedule fs (main_init fs n roots) sched).queue = [] ∧
    w.local_q = [] ∧ w.local_path = none ∧
    (run_thread_step fs (run_schedule fs (main_init fs n roots) sched) i).queue = [] ∧
    (∀ x ∈ (run_thread_step fs (run_schedule fs (main_init fs n roots) sched) i).workers,
      x.local_q = [] ∧ x.local_path = none) ∧
    (∀ j x, j ≠ i →
      (run_schedule fs (main_init fs n roots) sched).workers[j]? = some x →
      (run_thread_step fs (run_schedule fs (main_init fs n roots) sched) i).workers[j]?
        = some x ∧
      (x.starved = true ∨ x.done = true) ∧ x.local_q = [] ∧ x.local_path = none) := by
  have hinv := inv_schedule fs sched _ (inv_init fs n roots)
  have hinv' := inv_step fs _ i hinv
  generalize run_schedule fs (main_init fs n roots) sched = s at *
  have htr : Transition fs i s (run_thread_step fs s i) := by
    rcases step_transition fs s i with h | h
    · rw [h, hw] at hw'
      simp only [Option.some.injEq] at hw'
      subst hw'
      rw [hd] at hd'
      exact absurd hd' (by simp)
    · exact h
  obtain ⟨hq, hl, hp, hsame⟩ := finish_of_done fs i s _ w w' htr hw hd hw' hd'
  obtain ⟨hq', hall⟩ := hinv'.final ⟨w', List.getElem?_mem hw', hd'⟩
  refine ⟨hq, hl, hp, hq', fun x hx => hinv'.idle x hx (hall x hx), ?_⟩
  intro j x hj hx
  have hx' : (run_thread_step fs s i).workers[j]? = some x := by rw [hsame j hj]; exact hx
  have hmem := List.getElem?_mem hx'
  exact ⟨hx', hall x hmem, hinv'.idle x hmem (hall x hmem)⟩

/-- Instance of `no_premature_termination`: two workers on a tree with one empty root;
worker 0 starves, worker 1 then leaves its loop. -/
theorem no_premature_termination_witness :
    (run_schedule (scenario_fs false) (main_init (scenario_fs false) 2 ["R/B"]) [0]).queue = [] ∧
    (run_thread_step (scenario_fs false)
      (run_schedule (scenario_fs false) (main_init (scenario_fs false) 2 ["R/B"]) [0]) 1).queue
      = [] :=
  have h := no_premature_termination (scenario_fs false) 2 ["R/B"] [0] 1
    { local_q := [], starved := false, local_path := none, done := false, count := 0 }
    { local_q := [], starved := false, local_path := none, done := true, count := 0 }
    (by decide) (by decide) (by decide) (by decide)
  ⟨h.1, h.2.2.2.1⟩

/-- C4: in every state reached from the start of `n` workers (`num_active = n`, no worker
starved), `num_active` is the number of workers that are neither starved nor out of their
loop, and lies between 0 and `n`. -/
theorem num_active_invariant (fs : FileSystem) (n : Nat) (roots : List String)
    (sched : List Nat) :
    (main_init fs n roots).num_active = n ∧
    (∀ w ∈ (main_init fs n roots).workers, w.starved = false ∧ w.done = false) ∧
    (run_schedule fs (main_init fs n roots) sched).num_active
      = ((run_schedule fs (main_init fs n roots) sched).workers.countP is_active : Nat) ∧
    (run_schedule fs (main_init fs n roots) sched).workers.length = n ∧
    0 ≤ (run_schedule fs (main_init fs n roots) sched).num_active ∧
    (run_schedule fs (main_init fs n roots) sched).num_active ≤ n := by
  have hinv := inv_schedule fs sched _ (inv_init fs n roots)
  have hlen : (run_schedule fs (main_init fs n roots) sched).workers.length = n := by
    rw [length_schedule]; simp [main_init]
  have hle := sum_active_le (run_schedule fs (main_init fs n roots) sched).workers
  refine ⟨rfl, ?_, ?_, hlen, ?_, ?_⟩
  · intro w hw
    have := List.eq_of_mem_replicate hw
    subst this
    exact ⟨rfl, rfl⟩
  · rw [hinv.active, sum_active_eq_countP]
  · rw [hinv.active]; exact Int.natCast_nonneg _
  · rw [hinv.active]; omega

/-! ## Traversal: what `warm_dir` adds, and sums over subtrees -/

theorem warm_entry_acc (path : String) (acc : List String × Nat) (e : dirent) :
    warm_entry path acc e
      = (acc.1 ++ (warm_entry path ([], 0) e).1, acc.2 + (warm_entry path ([], 0) e).2) := by
  unfold warm_entry
  obtain ⟨q, c⟩ := acc
  split <;> (repeat' split) <;> simp

theorem foldl_warm_entry (path : String) (es : List dirent) :
    ∀ acc : List String × Nat, es.foldl (warm_entry path) acc
      = (acc.1 ++ (es.foldl (warm_entry path) ([], 0)).1,
         acc.2 + (es.foldl (warm_entry path) ([], 0)).2) := by
  induction es with
  | nil => intro acc; simp
  | cons e es ih =>
    intro acc
    simp only [List.foldl_cons]
    rw [ih (warm_entry path acc e), ih (warm_entry path ([], 0) e), warm_entry_acc path acc e]
    simp [List.append_assoc, Nat.add_assoc]

theorem warm_dir_eq (fs : FileSystem) (p : String) (q : List String) (c : Nat) :
    warm_dir fs p q c = (q ++ expand_dirs fs p, c + expand_count fs p) := by
  unfold expand_dirs expand_count warm_dir
  split
  · simp
  · exact foldl_warm_entry p _ (q, c)

theorem mem_foldl_warm_entry (path : String) (es : List dirent) (d : String) :
    d ∈ (es.foldl (warm_entry path) ([], 0)).1 →
    ∃ e ∈ es, e.is_dir = true ∧ e.d_name ≠ "." ∧ e.d_name ≠ ".." ∧
      d = child_path path e.d_name := by
  induction es with
  | nil => intro h; simp at h
  | cons e es ih =>
    intro h
    simp only [List.foldl_cons] at h
    rw [foldl_warm_entry] at h
    simp only [List.mem_append] at h
    rcases h with h | h
    · refine ⟨e, by simp, ?_⟩
      unfold warm_entry at h
      by_cases hdir : e.is_dir = true
      · simp only [hdir, if_true] at h
        by_cases h1 : e.d_name = "."
        · simp [h1] at h
        · by_cases h2 : e.d_name = ".."
          · simp [h2] at h
          · simp only [h1, h2, if_false] at h
            split at h
            · simp at h
              exact ⟨hdir, h1, h2, h⟩
            · simp at h
      · have hdir' : e.is_dir = false := by simpa using hdir
        simp only [hdir', Bool.false_eq_true, if_false] at h
        split at h <;> simp at h
    · obtain ⟨e', he', hrest⟩ := ih h
      exact ⟨e', by simp [he'], hrest⟩

theorem mem_expand_dirs (fs : FileSystem) (p d : String) (h : d ∈ expand_dirs fs p) :
    ∃ e ∈ fs.entries p, e.is_dir = true ∧ e.d_name ≠ "." ∧ e.d_name ≠ ".." ∧
      d = child_path p e.d_name := by
  unfold expand_dirs warm_dir at h
  split at h
  · simp at h
  · exact mem_foldl_warm_entry p _ d h

theorem height_expand_dirs (fs : FileSystem) (h : String → Nat) (hfin : FiniteTree fs h)
    (p d : String) (hd : d ∈ expand_dirs fs p) : h d < h p := by
  obtain ⟨e, he, hdir, h1, h2, rfl⟩ := mem_expand_dirs fs p d hd
  exact hfin p e he hdir h1 h2

theorem tree_sum_fuel (fs : FileSystem) (h : String → Nat) (hfin : FiniteTree fs h)
    (c : String → Nat) : ∀ (f1 f2 : Nat) (p : String), h p < f1 → h p < f2 →
    tree_sum fs c f1 p = tree_sum fs c f2 p := by
  intro f1
  induction f1 with
  | zero => intro f2 p h1; omega
  | succ a ih =>
    intro f2 p h1 h2
    obtain ⟨b, rfl⟩ : ∃ b, f2 = b + 1 := ⟨f2 - 1, by omega⟩
    unfold tree_sum
    congr 2
    apply List.map_congr_left
    intro d hd
    have := height_expand_dirs fs h hfin p d hd
    exact ih b d (by omega) (by omega)

/-- Unfolding of a subtree sum: the value at `p` plus the sums of its child directories. -/
theorem subtree_sum_eq (fs : FileSystem) (h : String → Nat) (hfin : FiniteTree fs h)
    (c : String → Nat) (p : String) :
    subtree_sum fs h c p = c p + ((expand_dirs fs p).map (subtree_sum fs h c)).sum := by
  unfold subtree_sum
  conv_lhs => unfold tree_sum
  congr 2
  apply List.map_congr_left
  intro d hd
  have := height_expand_dirs fs h hfin p d hd
  exact tree_sum_fuel fs h hfin c _ _ d (by omega) (by omega)

theorem pending_split (f : String → Nat) (q : List String) (n : Int) (t : Nat)
    (l1 l2 : List Worker) (w : Worker) :
    pending f ⟨q, n, t, l1 ++ w :: l2⟩
      = (q.map f).sum + (l1.map (held f)).sum + (l2.map (held f)).sum + held f w := by
  simp only [pending, List.map_append, List.map_cons, List.sum_append, List.sum_cons]
  omega

theorem count_split (l1 l2 : List Worker) (w : Worker) :
    ((l1 ++ w :: l2).map Worker.count).sum
      = (l1.map Worker.count).sum + (l2.map Worker.count).sum + w.count := by
  simp only [List.map_append, List.map_cons, List.sum_append, List.sum_cons]
  omega

theorem rank_split (l1 l2 : List Worker) (w : Worker) :
    ((l1 ++ w :: l2).map rank).sum = (l1.map rank).sum + (l2.map rank).sum + rank w := by
  simp only [List.map_append, List.map_cons, List.sum_append, List.sum_cons]
  omega

/-- The printed total plus the entries still to be found below the pending paths does not
change along a transition. -/
theorem conserved_transition (fs : FileSystem) (h : String → Nat) (hfin : FiniteTree fs h)
    (i : Nat) (s s' : State) (htr : Transition fs i s s') :
    main_total s' + pending (subtree_sum fs h (expand_count fs)) s'
      = main_total s + pending (subtree_sum fs h (expand_count fs)) s := by
  have hT := subtree_sum_eq fs h hfin (expand_count fs)
  cases htr with
  | expand l1 l2 w p q n t hl hd hp =>
    simp only [main_total, count_split, pending_split, held, warm_dir_eq, hp, List.map_append,
      List.sum_append, Option.toList_some, Option.toList_none, List.map_cons, List.map_nil,
      List.sum_cons, List.sum_nil]
    rw [hT p]
    omega
  | finish l1 l2 w n t hl hd hp hq hle =>
    simp only [main_total, count_split, pending_split, held]
  | starve l1 l2 w n t hl hd hp hq hlt =>
    simp only [main_total, count_split, pending_split, held]
  | dequeue l1 l2 w p q q' n t hl hd hp hq =>
    have h1 : (q.map (subtree_sum fs h (expand_count fs))).sum
        + (w.local_q.map (subtree_sum fs h (expand_count fs))).sum
        = (q'.map (subtree_sum fs h (expand_count fs))).sum
          + subtree_sum fs h (expand_count fs) p := by
      have := congrArg (fun l => (l.map (subtree_sum fs h (expand_count fs))).sum) hq
      simpa using this
    simp only [main_total, count_split, pending_split, held, hp, Option.toList_some,
      Option.toList_none, List.map_cons, List.map_nil, List.sum_cons, List.sum_nil]
    omega

theorem conserved_step (fs : FileSystem) (h : String → Nat) (hfin : FiniteTree fs h)
    (s : State) (i : Nat) :
    main_total (run_thread_step fs s i)
        + pending (subtree_sum fs h (expand_count fs)) (run_thread_step fs s i)
      = main_total s + pending (subtree_sum fs h (expand_count fs)) s := by
  rcases step_transition fs s i with hs | hs
  · rw [hs]
  · exact conserved_transition fs h hfin i s _ hs

theorem conserved_schedule (fs : FileSystem) (h : String → Nat) (hfin : FiniteTree fs h)
    (sched : List Nat) : ∀ s,
    main_total (run_schedule fs s sched)
        + pending (subtree_sum fs h (expand_count fs)) (run_schedule fs s sched)
      = main_total s + pending (subtree_sum fs h (expand_count fs)) s := by
  induction sched with
  | nil => intro s; rfl
  | cons i rest ih =>
    intro s
    exact (ih _).trans (conserved_step fs h hfin s i)

/-- Every transition lowers the progress measure, except the poll of a starved worker that
finds the queue empty while `num_active` is positive, which changes nothing. -/
theorem measure_transition (fs : FileSystem) (h : String → Nat) (hfin : FiniteTree fs h)
    (i : Nat) (s s' : State) (htr : Transition fs i s s') :
    measure fs h s' < measure fs h s ∨
      (s' = s ∧ ∃ w, s.workers[i]? = some w ∧ w.starved = true ∧ 0 < s.num_active) := by
  have hT := subtree_sum_eq fs h hfin (fun _ => 1)
  cases htr with
  | expand l1 l2 w p q n t hl hd hp =>
    left
    have hr : rank w = 1 := by simp [rank, hd, hp]
    have hr' : rank { w with local_q := (warm_dir fs p w.local_q w.count).1,
                             count := (warm_dir fs p w.local_q w.count).2,
                             local_path := none } ≤ 3 := by
      simp only [rank, hd]
      cases w.starved <;> simp
    simp only [measure, rank_split, pending_split, held, warm_dir_eq, hp, List.map_append,
      List.sum_append, Option.toList_some, Option.toList_none, List.map_cons, List.map_nil,
      List.sum_cons, List.sum_nil] at hr' ⊢
    rw [hT p, hr]
    omega
  | finish l1 l2 w n t hl hd hp hq hle =>
    left
    have hr : 2 ≤ rank w := by
      simp only [rank, hd, hp]
      cases w.starved <;> simp
    have hr' : rank { w with done := true } = 0 := by simp [rank]
    simp only [measure, rank_split, pending_split, held, hr']
    omega
  | starve l1 l2 w n t hl hd hp hq hlt =>
    cases hs : w.starved with
    | false =>
      left
      have hr : rank w = 3 := by simp [rank, hd, hp, hs]
      have hr' : rank { w with starved := true } = 2 := by simp [rank, hd, hp]
      simp only [measure, rank_split, pending_split, held, hr, hr']
      omega
    | true =>
      right
      subst hl
      have hw : ({ w with starved := true } : Worker) = w := by
        cases w; simp_all
      have hdec : decrement w = 0 := by simp [decrement, hs]
      rw [hdec] at hlt
      refine ⟨?_, w, getElem?_split l1 l2 w, hs, by simpa using hlt⟩
      rw [hw, hdec]
      simp
  | dequeue l1 l2 w p q q' n t hl hd hp hq =>
    left
    have hr : 2 ≤ rank w := by
      simp only [rank, hd, hp]
      cases w.starved <;> simp
    have hr' : rank { w with local_q := [], starved := false, local_path := some p } = 1 := by
      simp [rank, hd]
    have h1 : (q.map (subtree_sum fs h (fun _ => 1))).sum
        + (w.local_q.map (subtree_sum fs h (fun _ => 1))).sum
        = (q'.map (subtree_sum fs h (fun _ => 1))).sum
          + subtree_sum fs h (fun _ => 1) p := by
      have := congrArg (fun l => (l.map (subtree_sum fs h (fun _ => 1))).sum) hq
      simpa using this
    simp only [measure, rank_split, pending_split, held, hp, hr', Option.toList_some,
      Option.toList_none, List.map_cons, List.map_nil, List.sum_cons, List.sum_nil]
    omega

/-- A step leaves the state as it is or lowers the progress measure. -/
theorem measure_step (fs : FileSystem) (h : String → Nat) (hfin : FiniteTree fs h)
    (s : State) (i : Nat) :
    run_thread_step fs s i = s ∨ measure fs h (run_thread_step fs s i) < measure fs h s := by
  rcases step_transition fs s i with hs | hs
  · exact Or.inl hs
  · rcases measure_transition fs h hfin i s _ hs with hlt | ⟨heq, _⟩
    · exact Or.inr hlt
    · exact Or.inl heq

/-! ## Progress under fair scheduling -/

theorem step_all_done (fs : FileSystem) (s : State) (i : Nat) (h : all_done s = true) :
    run_thread_step fs s i = s := by
  unfold run_thread_step
  cases hw : s.workers[i]? with
  | none => rfl
  | some w =>
    have hmem := List.getElem?_mem hw
    have hd : w.done = true := by
      unfold all_done at h
      rw [List.all_eq_true] at h
      exact h w hmem
    simp [hd]

theorem inv_state_at (fs : FileSystem) (s : State) (sched : Nat → Nat) (hinv : Inv s) :
    ∀ t, Inv (state_at fs s sched t) := by
  intro t
  induction t with
  | zero => exact hinv
  | succ t ih => exact inv_step fs _ _ ih

theorem length_state_at (fs : FileSystem) (s : State) (sched : Nat → Nat) :
    ∀ t, (state_at fs s sched t).workers.length = s.workers.length := by
  intro t
  induction t with
  | zero => rfl
  | succ t ih => exact (length_step fs _ _).trans ih

theorem all_done_state_at (fs : FileSystem) (s : State) (sched : Nat → Nat) (t : Nat)
    (h : all_done (state_at fs s sched t) = true) :
    ∀ d, state_at fs s sched (t + d) = state_at fs s sched t := by
  intro d
  induction d with
  | zero => rfl
  | succ d ih =>
    show run_thread_step fs (state_at fs s sched (t + d)) (sched (t + d)) = _
    rw [ih]
    exact step_all_done fs _ _ h

/-- While some worker is in its loop, there is a worker whose next step makes progress. -/
theorem exists_progress (fs : FileSystem) (h : String → Nat) (hfin : FiniteTree fs h)
    (s : State) (hinv : Inv s) (hnd : all_done s = false) :
    ∃ i, i < s.workers.length ∧ measure fs h (run_thread_step fs s i) < measure fs h s := by
  have key : ∃ (i : Nat) (w : Worker), s.workers[i]? = some w ∧ w.done = false ∧
      (w.starved = false ∨ s.num_active ≤ 0) := by
    by_cases hex : ∃ w ∈ s.workers, w.done = false ∧ w.starved = false
    · obtain ⟨w, hmem, hd, hs⟩ := hex
      obtain ⟨i, hi⟩ := List.getElem?_of_mem hmem
      exact ⟨i, w, hi, hd, Or.inl hs⟩
    · have hall : ∀ w ∈ s.workers, w.starved = true ∨ w.done = true := by
        intro w hmem
        by_contra hcon
        apply hex
        refine ⟨w, hmem, ?_, ?_⟩
        · cases hd : w.done with
          | false => rfl
          | true => exact absurd (Or.inr hd) hcon
        · cases hs : w.starved with
          | false => rfl
          | true => exact absurd (Or.inl hs) hcon
      have hzero : (s.workers.map active_ind).sum = 0 := (sum_active_zero _).mpr hall
      have hn : s.num_active ≤ 0 := by rw [hinv.active, hzero]; simp
      obtain ⟨w, hmem, hd⟩ : ∃ w ∈ s.workers, w.done = false := by
        unfold all_done at hnd
        rw [List.all_eq_false] at hnd
        obtain ⟨w, hmem, hd⟩ := hnd
        exact ⟨w, hmem, by simpa using hd⟩
      obtain ⟨i, hi⟩ := List.getElem?_of_mem hmem
      exact ⟨i, w, hi, hd, Or.inr hn⟩
  obtain ⟨i, w, hw, hd, hcase⟩ := key
  have hlt : i < s.workers.length := by
    by_contra hcon
    rw [List.getElem?_eq_none (by omega)] at hw
    exact absurd hw (by simp)
  refine ⟨i, hlt, ?_⟩
  rcases measure_transition fs h hfin i s _ (step_of_worker fs s i w hw hd) with
    hdec | ⟨_, w', hw', hs', hpos⟩
  · exact hdec
  · rw [hw] at hw'
    simp only [Option.some.injEq] at hw'
    subst hw'
    rcases hcase with hs | hn
    · rw [hs] at hs'; exact absurd hs' (by simp)
    · omega

/-- Once worker `i` can make progress in the state at time `t`, the measure has dropped
by the next time `i` is scheduled. -/
theorem measure_drops (fs : FileSystem) (h : String → Nat) (hfin : FiniteTree fs h)
    (s0 : State) (sched : Nat → Nat) (i : Nat) (s : State)
    (hprog : measure fs h (run_thread_step fs s i) < measure fs h s) :
    ∀ d t, sched (t + d) = i → state_at fs s0 sched t = s →
      ∃ t'', measure fs h (state_at fs s0 sched (t'' + 1)) < measure fs h s := by
  intro d
  induction d with
  | zero =>
    intro t hs hst
    refine ⟨t, ?_⟩
    show measure fs h (run_thread_step fs (state_at fs s0 sched t) (sched t)) < _
    rw [hst, show sched t = i from hs]
    exact hprog
  | succ d ih =>
    intro t hs hst
    rcases measure_step fs h hfin s (sched t) with heq | hlt
    · apply ih (t + 1) (by rw [← hs]; congr 1; omega)
      show run_thread_step fs (state_at fs s0 sched t) (sched t) = s
      rw [hst, heq]
    · refine ⟨t, ?_⟩
      show measure fs h (run_thread_step fs (state_at fs s0 sched t) (sched t)) < _
      rw [hst]
      exact hlt

/-- Under a fair schedule every worker has left its loop after finitely many steps. -/
theorem fair_all_done (fs : FileSystem) (h : String → Nat) (hfin : FiniteTree fs h)
    (s0 : State) (hinv : Inv s0) (sched : Nat → Nat) (hfair : Fair s0.workers.length sched) :
    ∃ t, all_done (state_at fs s0 sched t) = true := by
  have main : ∀ m t, measure fs h (state_at fs s0 sched t) ≤ m →
      ∃ t', all_done (state_at fs s0 sched t') = true := by
    intro m
    induction m with
    | zero =>
      intro t hm
      cases hnd : all_done (state_at fs s0 sched t) with
      | true => exact ⟨t, hnd⟩
      | false =>
        obtain ⟨i, _, hprog⟩ := exists_progress fs h hfin _ (inv_state_at fs s0 sched hinv t) hnd
        omega
    | succ m ih =>
      intro t hm
      cases hnd : all_done (state_at fs s0 sched t) with
      | true => exact ⟨t, hnd⟩
      | false =>
        obtain ⟨i, hi, hprog⟩ :=
          exists_progress fs h hfin _ (inv_state_at fs s0 sched hinv t) hnd
        rw [length_state_at] at hi
        obtain ⟨t', hle, hs⟩ := hfair i hi t
        obtain ⟨t'', hlt⟩ := measure_drops fs h hfin s0 sched i _ hprog (t' - t) t
          (by rw [← hs]; congr 1; omega) rfl
        exact ih (t'' + 1) (by omega)
  exact main _ 0 (le_refl _)

theorem state_at_const (fs : FileSystem) (s : State) (i : Nat) :
    ∀ k, state_at fs s (fun _ => i) k = run_schedule fs s (List.replicate k i) := by
  intro k
  induction k with
  | zero => rfl
  | succ k ih =>
    show run_thread_step fs (state_at fs s (fun _ => i) k) i = _
    rw [ih, List.replicate_succ']
    simp [run_schedule, List.foldl_append]

theorem state_at_range (fs : FileSystem) (s : State) (sched : Nat → Nat) :
    ∀ t, state_at fs s sched t = run_schedule fs s ((List.range t).map sched) := by
  intro t
  induction t with
  | zero => rfl
  | succ t ih =>
    show run_thread_step fs (state_at fs s sched t) (sched t) = _
    rw [ih, List.range_succ]
    simp [run_schedule, List.foldl_append]

/-- When every worker of a non-empty pool has left its loop, nothing is pending. -/
theorem pending_all_done (f : String → Nat) (s : State) (hinv : Inv s)
    (hne : 0 < s.workers.length) (hd : all_done s = true) : pending f s = 0 := by
  have hall : ∀ w ∈ s.workers, w.done = true := by
    unfold all_done at hd
    rw [List.all_eq_true] at hd
    exact hd
  obtain ⟨w0, hw0⟩ : ∃ w, w ∈ s.workers := by
    cases hws : s.workers with
    | nil => rw [hws] at hne; simp at hne
    | cons a l => exact ⟨a, by simp⟩
  obtain ⟨hq, hidle⟩ := hinv.final ⟨w0, hw0, hall w0 hw0⟩
  unfold pending
  rw [hq]
  have : ∀ x ∈ s.workers.map (held f), x = 0 := by
    intro x hx
    obtain ⟨w, hw, rfl⟩ := List.mem_map.mp hx
    obtain ⟨h1, h2⟩ := hinv.idle w hw (hidle w hw)
    simp [held, h1, h2]
  simp [List.sum_eq_zero this]

/-! ## The total of a finished run, and the reference walk -/

theorem run_schedule_all_done (fs : FileSystem) (sched : List Nat) :
    ∀ s, all_done s = true → run_schedule fs s sched = s := by
  induction sched with
  | nil => intro s _; rfl
  | cons i rest ih =>
    intro s hd
    show run_schedule fs (run_thread_step fs s i) rest = s
    rw [step_all_done fs s i hd]
    exact ih s hd

theorem single_run_add (fs : FileSystem) (roots : List String) (k0 k : Nat)
    (hd : all_done (single_run fs roots k0) = true) :
    single_run fs roots (k0 + k) = single_run fs roots k0 := by
  unfold single_run at hd ⊢
  rw [List.replicate_add]
  unfold run_schedule at hd ⊢
  rw [List.foldl_append]
  exact run_schedule_all_done fs _ _ hd

theorem init_conserved (fs : FileSystem) (h : String → Nat) (n : Nat) (roots : List String) :
    main_total (main_init fs n roots)
        + pending (subtree_sum fs h (expand_count fs)) (main_init fs n roots)
      = expected_total fs h roots := by
  simp [main_total, pending, main_init, expected_total, held]

/-- A finished run of `n ≥ 1` workers prints the expected total. -/
theorem total_of_all_done (fs : FileSystem) (h : String → Nat) (hfin : FiniteTree fs h)
    (n : Nat) (hn : 1 ≤ n) (roots : List String) (sched : List Nat)
    (hd : all_done (run_schedule fs (main_init fs n roots) sched) = true) :
    main_total (run_schedule fs (main_init fs n roots) sched) = expected_total fs h roots := by
  have hinv := inv_schedule fs sched _ (inv_init fs n roots)
  have hlen : (run_schedule fs (main_init fs n roots) sched).workers.length = n := by
    rw [length_schedule]; simp [main_init]
  have hp := pending_all_done (subtree_sum fs h (expand_count fs)) _ hinv (by omega) hd
  have hc := conserved_schedule fs h hfin sched (main_init fs n roots)
  rw [hp, init_conserved] at hc
  simpa using hc

/-- The run with one worker finishes. -/
theorem single_run_finishes (fs : FileSystem) (h : String → Nat) (hfin : FiniteTree fs h)
    (roots : List String) : ∃ k0, all_done (single_run fs roots k0) = true := by
  have hfair : Fair (main_init fs 1 roots).workers.length (fun _ => 0) := by
    intro i hi t
    simp only [main_init, List.length_replicate] at hi
    exact ⟨t, le_refl _, by show 0 = i; omega⟩
  obtain ⟨t, ht⟩ := fair_all_done fs h hfin _ (inv_init fs 1 roots) _ hfair
  refine ⟨t, ?_⟩
  unfold single_run
  rw [← state_at_const]
  exact ht

theorem measure_state_at_le (fs : FileSystem) (h : String → Nat) (hfin : FiniteTree fs h)
    (s0 : State) (sched : Nat → Nat) (t : Nat) :
    ∀ d, measure fs h (state_at fs s0 sched (t + d)) ≤ measure fs h (state_at fs s0 sched t) := by
  intro d
  induction d with
  | zero => exact le_refl _
  | succ d ih =>
    have hstep := measure_step fs h hfin (state_at fs s0 sched (t + d)) (sched (t + d))
    have heq : state_at fs s0 sched (t + (d + 1))
        = run_thread_step fs (state_at fs s0 sched (t + d)) (sched (t + d)) := rfl
    rw [heq]
    rcases hstep with hs | hs
    · rw [hs]; exact ih
    · omega

theorem constant_of_no_change (fs : FileSystem) (s0 : State) (sched : Nat → Nat) (t : Nat)
    (hno : ∀ t', t ≤ t' → state_at fs s0 sched (t' + 1) = state_at fs s0 sched t') :
    ∀ d, state_at fs s0 sched (t + d) = state_at fs s0 sched t := by
  intro d
  induction d with
  | zero => rfl
  | succ d ih =>
    rw [show t + (d + 1) = (t + d) + 1 by omega, hno (t + d) (by omega)]
    exact ih

/-- Under every schedule the state changes only finitely often. -/
theorem eventually_constant (fs : FileSystem) (h : String → Nat) (hfin : FiniteTree fs h)
    (s0 : State) (sched : Nat → Nat) :
    ∃ t, ∀ t', t ≤ t' → state_at fs s0 sched t' = state_at fs s0 sched t := by
  have main : ∀ m t, measure fs h (state_at fs s0 sched t) ≤ m →
      ∃ t0, ∀ t', t0 ≤ t' → state_at fs s0 sched t' = state_at fs s0 sched t0 := by
    intro m
    induction m with
    | zero =>
      intro t hm
      refine ⟨t, fun t' hle => ?_⟩
      have hc := constant_of_no_change fs s0 sched t (by
        intro t1 h1
        rcases measure_step fs h hfin (state_at fs s0 sched t1) (sched t1) with hs | hs
        · exact hs
        · have := measure_state_at_le fs h hfin s0 sched t (t1 - t)
          rw [show t + (t1 - t) = t1 by omega] at this
          omega) (t' - t)
      rw [show t + (t' - t) = t' by omega] at hc
      exact hc
    | succ m ih =>
      intro t hm
      by_cases hno : ∀ t', t ≤ t' → state_at fs s0 sched (t' + 1) = state_at fs s0 sched t'
      · refine ⟨t, fun t' hle => ?_⟩
        have hc := constant_of_no_change fs s0 sched t hno (t' - t)
        rw [show t + (t' - t) = t' by omega] at hc
        exact hc
      · push_neg at hno
        obtain ⟨t1, h1, hne⟩ := hno
        have hlt : measure fs h (state_at fs s0 sched (t1 + 1))
            < measure fs h (state_at fs s0 sched t1) := by
          rcases measure_step fs h hfin (state_at fs s0 sched t1) (sched t1) with hs | hs
          · exact absurd hs hne
          · exact hs
        have hle := measure_state_at_le fs h hfin s0 sched t (t1 - t)
        rw [show t + (t1 - t) = t1 by omega] at hle
        exact ih (t1 + 1) (by omega)
  exact main _ 0 (le_refl _)


/-! ## A listing without entry types -/

/-- A step of worker `i` leaves the locals of every other worker as they are. -/
theorem step_other (fs : FileSystem) (s : State) (i j : Nat) (hij : i ≠ j) :
    (run_thread_step fs s i).workers[j]? = s.workers[j]? := by
  unfold run_thread_step
  cases hw : s.workers[i]? with
  | none => rfl
  | some w =>
    simp only
    split_ifs with hd
    · rfl
    · cases hp : w.local_path with
      | some p =>
        simp only [expand_path]
        exact List.getElem?_set_ne hij
      | none =>
        simp only [critical_section]
        split_ifs <;> exact List.getElem?_set_ne hij

/-- Under the schedule that only ever runs worker 0, the locals of worker `j ≥ 1` never
change. -/
theorem state_at_other (fs : FileSystem) (s : State) (j : Nat) (hj : 0 ≠ j) :
    ∀ t, (state_at fs s (fun _ => 0) t).workers[j]? = s.workers[j]? := by
  intro t
  induction t with
  | zero => rfl
  | succ t ih =>
    show (run_thread_step fs (state_at fs s (fun _ => 0) t) 0).workers[j]? = _
    rw [step_other fs _ 0 j hj, ih]

/-- A state with a worker still in its loop is not the final state. -/
theorem not_all_done_of_worker (s : State) (j : Nat) (w : Worker) (hw : s.workers[j]? = some w)
    (hd : w.done = false) : all_done s = false := by
  cases hall : all_done s with
  | false => rfl
  | true =>
    unfold all_done at hall
    rw [List.all_eq_true] at hall
    have := hall w (List.getElem?_mem hw)
    rw [hd] at this
    exact absurd this (by simp)

/-! ## The scenario tree -/

theorem scenario_entries (dots : Bool) (p : String) (e : dirent)
    (he : e ∈ (scenario_fs dots).entries p) :
    is_link e = true ∧ e.is_dir = true ∨
    (p = "R" ∧ (e = ⟨"A", true⟩ ∨ e = ⟨"B", true⟩ ∨ e = ⟨"f", false⟩)) ∨
    (p = "R/A" ∧ e = ⟨"g", false⟩) := by
  have hlinks : ∀ x ∈ (if dots = true then [(⟨".", true⟩ : dirent), ⟨"..", true⟩] else []),
      is_link x = true ∧ x.is_dir = true := by
    intro x hx
    cases dots
    · simp at hx
    · simp only [if_true, List.mem_cons, List.mem_singleton, List.not_mem_nil, or_false] at hx
      rcases hx with rfl | rfl <;> exact ⟨rfl, rfl⟩
  by_cases h1 : p = "R"
  · have hE : (scenario_fs dots).entries p
        = (if dots = true then [(⟨".", true⟩ : dirent), ⟨"..", true⟩] else [])
          ++ [⟨"A", true⟩, ⟨"B", true⟩, ⟨"f", false⟩] := by
      simp [scenario_fs, h1]
    rw [hE, List.mem_append] at he
    rcases he with he | he
    · exact Or.inl (hlinks e he)
    · right; left
      simp only [List.mem_cons, List.mem_singleton, List.not_mem_nil, or_false] at he
      exact ⟨h1, he⟩
  · by_cases h2 : p = "R/A"
    · have hE : (scenario_fs dots).entries p
          = (if dots = true then [(⟨".", true⟩ : dirent), ⟨"..", true⟩] else [])
            ++ [⟨"g", false⟩] := by
        simp [scenario_fs, h2]
      rw [hE, List.mem_append] at he
      rcases he with he | he
      · exact Or.inl (hlinks e he)
      · right; right
        simp only [List.mem_singleton] at he
        exact ⟨h2, he⟩
    · by_cases h3 : p = "R/B"
      · have hE : (scenario_fs dots).entries p
            = (if dots = true then [(⟨".", true⟩ : dirent), ⟨"..", true⟩] else []) := by
          simp [scenario_fs, h3]
        rw [hE] at he
        exact Or.inl (hlinks e he)
      · simp [scenario_fs, h1, h2, h3] at he

theorem scenario_finite (dots : Bool) : FiniteTree (scenario_fs dots) scenario_height := by
  intro p e he hdir hn1 hn2
  have hcases := scenario_entries dots p e he
  clear he
  rcases hcases with ⟨hl, _⟩ | ⟨rfl, he⟩ | ⟨rfl, rfl⟩
  · unfold is_link at hl
    simp only [Bool.or_eq_true, decide_eq_true_eq] at hl
    rcases hl with hl | hl
    · exact absurd hl hn1
    · exact absurd hl hn2
  · rcases he with rfl | rfl | rfl
    · decide
    · decide
    · simp at hdir
  · simp at hdir

/-- C2: on a finite tree, for every list of roots, there is one total `T` such that the run
with one worker finishes and prints `T`, and every execution of `n ≥ 1` workers, whatever
the order of their steps, that ends with all workers out of their loop prints `T` as well
(the seeding count plus the sum of the workers' counts). -/
theorem concurrency_invariance (fs : FileSystem) (h : String → Nat) (hfin : FiniteTree fs h)
    (roots : List String) :
    ∃ T, (∃ k0, ∀ k, report (single_run fs roots (k0 + k)) = some T) ∧
      ∀ n sched, 1 ≤ n → all_done (run_schedule fs (main_init fs n roots) sched) = true →
        report (run_schedule fs (main_init fs n roots) sched) = some T ∧
        (run_schedule fs (main_init fs n roots) sched).total
          + ((run_schedule fs (main_init fs n roots) sched).workers.map Worker.count).sum
          = T := by
  refine ⟨expected_total fs h roots, ?_, ?_⟩
  · obtain ⟨k0, hk0⟩ := single_run_finishes fs h hfin roots
    refine ⟨k0, fun k => ?_⟩
    rw [single_run_add fs roots k0 k hk0]
    unfold report
    rw [hk0, if_pos rfl]
    congr 1
    exact total_of_all_done fs h hfin 1 (le_refl _) roots _ hk0
  · intro n sched hn hd
    have := total_of_all_done fs h hfin n hn roots sched hd
    refine ⟨?_, this⟩
    unfold report
    rw [hd, if_pos rfl, this]

/-- Instance of `concurrency_invariance`: the scenario tree, one worker against two workers
taking turns. -/
theorem concurrency_invariance_witness :
    ∃ T, (∃ k0, ∀ k, report (single_run (scenario_fs true) ["R"] (k0 + k)) = some T) ∧
      report (run_schedule (scenario_fs true) (main_init (scenario_fs true) 2 ["R"])
        [0, 1, 0, 1, 0, 1, 0, 1]) = some T :=
  have ⟨T, h1, h2⟩ := concurrency_invariance (scenario_fs true) scenario_height
    (scenario_finite true) ["R"]
  ⟨T, h1, (h2 2 [0, 1, 0, 1, 0, 1, 0, 1] (by decide) (by decide)).1⟩

/-- C5 (amended): on a finite tree, for every list of roots, every number `n` of workers and
every infinite schedule of their steps: the state changes only finitely often; as long as
some worker is in its loop, some worker can take a step that changes the state; and when the
schedule is fair (each worker is scheduled again and again), the run reaches after finitely
many steps the state in which all workers have left their loop, and stays there. -/
theorem run_terminates (fs : FileSystem) (h : String → Nat) (hfin : FiniteTree fs h)
    (n : Nat) (roots : List String) (sched : Nat → Nat) :
    (∃ t, ∀ t', t ≤ t' → state_at fs (main_init fs n roots) sched t'
      = state_at fs (main_init fs n roots) sched t) ∧
    (∀ t, all_done (state_at fs (main_init fs n roots) sched t) = false →
      ∃ i, i < n ∧ run_thread_step fs (state_at fs (main_init fs n roots) sched t) i
        ≠ state_at fs (main_init fs n roots) sched t) ∧
    (Fair n sched →
      ∃ t, ∀ t', t ≤ t' → all_done (state_at fs (main_init fs n roots) sched t') = true) := by
  have hlen : (main_init fs n roots).workers.length = n := by simp [main_init]
  refine ⟨eventually_constant fs h hfin _ sched, ?_, ?_⟩
  · intro t hnd
    obtain ⟨i, hi, hlt⟩ := exists_progress fs h hfin _
      (inv_state_at fs _ sched (inv_init fs n roots) t) hnd
    rw [length_state_at, hlen] at hi
    refine ⟨i, hi, fun heq => ?_⟩
    rw [heq] at hlt
    exact absurd hlt (lt_irrefl _)
  · intro hfair
    obtain ⟨t, ht⟩ := fair_all_done fs h hfin _ (inv_init fs n roots) sched
      (by rw [hlen]; exact hfair)
    refine ⟨t, fun t' hle => ?_⟩
    have := all_done_state_at fs _ sched t ht (t' - t)
    rw [show t + (t' - t) = t' by omega] at this
    rw [this]
    exact ht

/-- Instance of `run_terminates`: the scenario tree, two workers taking turns. -/
theorem run_terminates_witness :
    ∃ t, ∀ t', t ≤ t' →
      all_done (state_at (scenario_fs true) (main_init (scenario_fs true) 2 ["R"])
        (fun t => t % 2) t') = true :=
  (run_terminates (scenario_fs true) scenario_height (scenario_finite true) 2 ["R"]
    (fun t => t % 2)).2.2
    (fun i hi t => ⟨2 * t + i, by omega, by show (2 * t + i) % 2 = i; omega⟩)

/-- Two workers on the scenario tree under the schedule that runs worker 0 at every step,
worker 1 never getting the lock: after 6 steps worker 0 has expanded the whole tree and is
starved, `num_active` is 1 on account of worker 1, and from then on worker 0 polls the empty
queue without any change; at no time have all workers left their loop. -/
theorem run_terminates_counterexample :
    FiniteTree (scenario_fs true) scenario_height ∧
    state_at (scenario_fs true) (main_init (scenario_fs true) 2 ["R"]) (fun _ => 0) 6
      = { queue := [], num_active := 1, total := 4,
          workers := [
            { local_q := [], starved := true, local_path := none, done := false, count := 1 },
            { local_q := [], starved := false, local_path := none, done := false,
              count := 0 }] } ∧
    (∀ k, state_at (scenario_fs true) (main_init (scenario_fs true) 2 ["R"]) (fun _ => 0)
        (6 + k)
      = state_at (scenario_fs true) (main_init (scenario_fs true) 2 ["R"]) (fun _ => 0) 6) ∧
    (∀ t, all_done (state_at (scenario_fs true) (main_init (scenario_fs true) 2 ["R"])
      (fun _ => 0) t) = false) ∧
    ¬ ∃ t, all_done (state_at (scenario_fs true) (main_init (scenario_fs true) 2 ["R"])
      (fun _ => 0) t) = true := by
  have h6 : state_at (scenario_fs true) (main_init (scenario_fs true) 2 ["R"]) (fun _ => 0) 6
      = { queue := [], num_active := 1, total := 4,
          workers := [
            { local_q := [], starved := true, local_path := none, done := false, count := 1 },
            { local_q := [], starved := false, local_path := none, done := false,
              count := 0 }] } := by
    decide
  have hnever : ∀ t, all_done (state_at (scenario_fs true)
      (main_init (scenario_fs true) 2 ["R"]) (fun _ => 0) t) = false := by
    intro t
    exact not_all_done_of_worker _ 1 _
      (state_at_other (scenario_fs true) (main_init (scenario_fs true) 2 ["R"]) 1
        (by decide) t) rfl
  refine ⟨scenario_finite true, h6, ?_, hnever, ?_⟩
  · intro k
    induction k with
    | zero => rfl
    | succ k ih =>
      show run_thread_step (scenario_fs true) (state_at (scenario_fs true)
        (main_init (scenario_fs true) 2 ["R"]) (fun _ => 0) (6 + k)) 0 = _
      rw [ih, h6]
      decide
  · rintro ⟨t, ht⟩
    rw [hnever t] at ht
    exact absurd ht (by decide)

/-- C6: on the scenario tree (root `R` with directories `A`, `B` and file `f`; `A` with file
`g`; `B` empty), whether or not `readdir` lists the links `.` and `..`, the run with one
worker has finished after 5 steps and prints the total 5. -/
theorem scenario_total (dots : Bool) (k : Nat) :
    report (single_run (scenario_fs dots) ["R"] (5 + k)) = some 5 := by
  cases dots
  · rw [single_run_add _ _ 5 k (by decide)]
    decide
  · rw [single_run_add _ _ 5 k (by decide)]
    decide

end Warmdents
